import Mathlib

/-!
Shallow embedding of the wasm-map-lookup tool (src/main.rs): a source-map
VLQ decoder plus a floor binary-search offset resolver.  Rust `i32` values
are modelled as `Int` wrapped into `[-2^31, 2^31)` by `wrap32` at every
arithmetic step that Rust performs with (release-mode, wrapping) `i32`
arithmetic; Rust `u32` values are modelled as `Nat` reduced mod `2^32`;
Rust strings are modelled as `List Char`.
-/

/-- Interpretation of a two's-complement 32-bit addition result: reduce an
integer into the representative range `[-2^31, 2^31)`. -/
def wrap32 (x : Int) : Int := (x + 2147483648) % 4294967296 - 2147483648

/-- Rust cast `i32 as u32`: reinterpret mod `2^32`. -/
def toU32 (x : Int) : Nat := (x % 4294967296).toNat

/-- Rust cast `i32 as usize` (64-bit target): sign-extend, then reinterpret
as an unsigned 64-bit value. -/
def i32ToUsize (x : Int) : Nat := (x % 18446744073709551616).toNat

/-- Rust `str::split(c)` on a string viewed as a character list: split on
every occurrence of the separator, keeping empty pieces (`""` gives one
empty piece). -/
def splitOnChar (sep : Char) : List Char → List (List Char)
  | [] => [[]]
  | c :: rest =>
    match splitOnChar sep rest with
    | [] => [[c]]
    | g :: gs => if c = sep then [] :: g :: gs else (c :: g) :: gs

/-- Rust `str::starts_with` for a two-character pattern. -/
def startsWith2 (a b : Char) : List Char → Bool
  | x :: y :: _ => x = a ∧ y = b
  | _ => false

/-- The base64 digit of a character in `vlq_decode`'s `match c` table:
`A`-`Z` are 0-25, `a`-`z` are 26-51, `0`-`9` are 52-61, `+` is 62, `/` is
63; everything else is skipped (`none`). -/
def charDigit (c : Char) : Option Int :=
  if 'A' ≤ c ∧ c ≤ 'Z' then some ((c.toNat - 65 : Nat) : Int)
  else if 'a' ≤ c ∧ c ≤ 'z' then some ((c.toNat - 97 + 26 : Nat) : Int)
  else if '0' ≤ c ∧ c ≤ '9' then some ((c.toNat - 48 + 52 : Nat) : Int)
  else if c = '+' then some 62
  else if c = '/' then some 63
  else none

/-- The loop body of `vlq_decode`: `value` and the pushed results are `i32`
(wrapping arithmetic in release mode, hence `wrap32`), `shift` grows by 5
per digit and is masked mod 32 by Rust's wrapping shift, `value >> 1` is an
arithmetic shift (floor division, which is `Int` division for the positive
divisor 2), and `value & 1` is `value % 2`. -/
def vlqLoop : List Char → Int → Nat → List Int → List Int
  | [], _, _, res => res
  | c :: cs, value, shift, res =>
    match charDigit c with
    | none => vlqLoop cs value shift res
    | some d =>
      let continuation : Bool := 32 ≤ d
      let digit := d % 32
      let value2 := wrap32 (value + wrap32 (digit * 2 ^ (shift % 32)))
      if continuation then vlqLoop cs value2 (shift + 5) res
      else
        let sign : Int := if value2 % 2 ≠ 0 then -1 else 1
        vlqLoop cs 0 0 (res ++ [sign * (value2 / 2)])

/-- Rust `vlq_decode`: decode a base64 VLQ segment into signed integers. -/
def vlq_decode (segment : List Char) : List Int := vlqLoop segment 0 0 []

/-- Rust `struct MappingEntry`. -/
structure MappingEntry where
  gen_offset : Nat
  source : Option String
  line : Option Nat
  column : Option Nat
deriving DecidableEq, Repr

/-- Placeholder entry used for out-of-range indexing in specifications. -/
def defaultEntry : MappingEntry := ⟨0, none, none, none⟩

/-- The four running counters of the decode loop in `main`:
`gen_offset : u32`, `source_index original_line original_column : i32`. -/
structure DecodeState where
  gen_offset : Nat
  source_index : Int
  original_line : Int
  original_column : Int
deriving DecidableEq, Repr

/-- Counters at the start of the decode loop. -/
def initState : DecodeState := ⟨0, 0, 0, 0⟩

/-- One iteration of the inner decode loop in `main`, for a segment with a
nonempty field list: `gen_offset` is updated by `wrapping_add(fields[0] as
u32)`; when at least 4 fields are present the three `i32` counters receive
their deltas and the entry gets `sources.get(source_index as usize)`, line
counter plus one, and the raw column counter, each cast `as u32`. -/
def stepSeg (sources : List String) (st : DecodeState) (fields : List Int) :
    DecodeState × MappingEntry :=
  let gen2 := (st.gen_offset + toU32 (fields.headD 0)) % 4294967296
  match fields with
  | _ :: f1 :: f2 :: f3 :: _ =>
    let si := wrap32 (st.source_index + f1)
    let src := sources.get? (i32ToUsize si)
    let ol := wrap32 (st.original_line + f2)
    let oc := wrap32 (st.original_column + f3)
    (⟨gen2, si, ol, oc⟩, ⟨gen2, src, some (toU32 (ol + 1)), some (toU32 oc)⟩)
  | _ => ({ st with gen_offset := gen2 }, ⟨gen2, none, none, none⟩)

/-- The inner loop of `main` over the comma-separated segments of one
group: decode each segment, skip those with no fields, otherwise step the
counters and push one entry. -/
def foldSegs (sources : List String) : DecodeState → List (List Char) →
    DecodeState × List MappingEntry
  | st, [] => (st, [])
  | st, s :: rest =>
    let fields := vlq_decode s
    if fields.isEmpty then foldSegs sources st rest
    else
      let p1 := stepSeg sources st fields
      let p2 := foldSegs sources p1.1 rest
      (p2.1, p1.2 :: p2.2)

/-- The outer loop of `main` over the semicolon-separated groups: empty
groups are skipped; the counter state is carried from group to group. -/
def foldLines (sources : List String) : DecodeState → List (List Char) →
    DecodeState × List MappingEntry
  | st, [] => (st, [])
  | st, l :: rest =>
    if l.isEmpty then foldLines sources st rest
    else
      let p1 := foldSegs sources st (splitOnChar ',' l)
      let p2 := foldLines sources p1.1 rest
      (p2.1, p1.2 ++ p2.2)

/-- The decode pass of `main`: split the `mappings` string on `;`, then
each group on `,`, and accumulate entries with the running counters. -/
def decodeMappings (sources : List String) (mappings : List Char) :
    List MappingEntry :=
  (foldLines sources initState (splitOnChar ';' mappings)).2

/-- Rust `struct SourceMap` (its `mappings` string as a character list). -/
structure SourceMap where
  version : Nat
  sources : List String
  names : List String
  mappings : List Char

/-- Insert an entry into a list sorted ascending by `gen_offset`, after all
entries with a key not larger than its own. -/
def insertEntry (e : MappingEntry) : List MappingEntry → List MappingEntry
  | [] => [e]
  | x :: xs =>
    if e.gen_offset < x.gen_offset then e :: x :: xs else x :: insertEntry e xs

/-- Rust `entries.sort_by_key(|e| e.gen_offset)` (a stable ascending sort,
here realised as insertion sort, which is also stable). -/
def sortEntries (l : List MappingEntry) : List MappingEntry :=
  l.foldl (fun acc e => insertEntry e acc) []

/-- Key of the entry at index `j` (out-of-range reads give `defaultEntry`,
which the searches below never perform). -/
def keyAt (entries : List MappingEntry) (j : Nat) : Nat :=
  (entries.getD j defaultEntry).gen_offset

/-- Rust `slice::binary_search_by` comparing `e.gen_offset` with the
target: probe `mid = left + (right - left) / 2`, move `left` past `mid` on
`Less`, shrink `right` to `mid` on `Greater`, return `Ok(mid)` on `Equal`,
and `Err(left)` when the window empties.  The fuel argument only bounds the
iteration count; it is set to the list length at the entry point. -/
def bsearchAux (entries : List MappingEntry) (target : Nat) :
    Nat → Nat → Nat → Except Nat Nat
  | 0, left, _ => .error left
  | fuel + 1, left, right =>
    if left < right then
      if keyAt entries (left + (right - left) / 2) < target then
        bsearchAux entries target fuel (left + (right - left) / 2 + 1) right
      else if target < keyAt entries (left + (right - left) / 2) then
        bsearchAux entries target fuel left (left + (right - left) / 2)
      else .ok (left + (right - left) / 2)
    else .error left

/-- Rust `entries.binary_search_by(|e| e.gen_offset.cmp(&target_offset))`. -/
def bsearch (entries : List MappingEntry) (target : Nat) : Except Nat Nat :=
  bsearchAux entries target entries.length 0 entries.length

/-- The observable outcome of `get_source` for one query: the early
`Err(0)` report, the `direct` report of a matched entry with a source, the
source-less match with or without a closest prior sourced entry, and the
(unreachable) `None` branch of `entries.get(idx)`. -/
inductive LookupOutcome where
  | noMapping
  | noEntry
  | direct (best : MappingEntry)
  | internalPrev (best ts : MappingEntry)
  | internalNoPrev (best : MappingEntry)
deriving DecidableEq, Repr

/-- The match reported by an outcome, when one was selected. -/
def LookupOutcome.best : LookupOutcome → Option MappingEntry
  | .direct e => some e
  | .internalPrev e _ => some e
  | .internalNoPrev e => some e
  | _ => none

/-- The body of `get_source` after the search picked index `idx`: report
the entry there; if its `source` is `None`, additionally search
`entries[..idx]` backwards (`rfind`) for an entry with a source. -/
def resolveAt (entries : List MappingEntry) (idx : Nat) : LookupOutcome :=
  match entries.get? idx with
  | none => .noEntry
  | some e =>
    if e.source.isNone then
      match (entries.take idx).reverse.find? (fun p => p.source.isSome) with
      | some ts => .internalPrev e ts
      | none => .internalNoPrev e
    else .direct e

/-- Rust `get_source`: floor binary search, `Err(0)` means no entry is at
or below the target, `Err(i)` selects index `i - 1`, `Ok(i)` selects `i`. -/
def get_source (entries : List MappingEntry) (target_offset : Nat) : LookupOutcome :=
  match bsearch entries target_offset with
  | .ok i => resolveAt entries i
  | .error 0 => .noMapping
  | .error (i + 1) => resolveAt entries i

/-- The part of `main` after JSON parsing: decode the mappings, fail when
no entry was produced, otherwise sort and resolve every query in order. -/
def processMap (sm : SourceMap) (queries : List Nat) :
    Except String (List LookupOutcome) :=
  let entries := decodeMappings sm.sources sm.mappings
  if entries.isEmpty then
    .error "No mapping entries parsed"
  else
    .ok (queries.map (fun q => get_source (sortEntries entries) q))

/-- Rust `char::to_digit(radix)`. -/
def digitVal (radix : Nat) (c : Char) : Option Nat :=
  let v : Option Nat :=
    if '0' ≤ c ∧ c ≤ '9' then some (c.toNat - 48)
    else if 'a' ≤ c ∧ c ≤ 'z' then some (c.toNat - 97 + 10)
    else if 'A' ≤ c ∧ c ≤ 'Z' then some (c.toNat - 65 + 10)
    else none
  match v with
  | some d => if d < radix then some d else none
  | none => none

/-- The digit loop of Rust `u32::from_str_radix`: multiply by the radix
and add each digit with checked `u32` arithmetic; any check failure or
invalid digit is an error. -/
def parseLoop (radix : Nat) : List Char → Nat → Option Nat
  | [], acc => some acc
  | c :: cs, acc =>
    match digitVal radix c with
    | none => none
    | some d =>
      let m := acc * radix
      if 4294967296 ≤ m then none
      else if 4294967296 ≤ m + d then none
      else parseLoop radix cs (m + d)

/-- Rust `u32::from_str_radix` at an unsigned target type: empty input is
an error, one leading `+` sign is consumed (a sign with no digits is an
error), and a `-` sign is not consumed for unsigned types — it reaches the
digit loop and fails as an invalid digit, as every non-digit does. -/
def parseU32Radix (radix : Nat) (s : List Char) : Option Nat :=
  match s with
  | [] => none
  | c :: rest =>
    if c = '+' then (if rest.isEmpty then none else parseLoop radix rest 0)
    else parseLoop radix (c :: rest) 0

/-- Rust `parse_offset`: a `0x`/`0X` prefix selects hexadecimal parsing of
the remainder, anything else is parsed as decimal (`str::parse::<u32>` is
`from_str_radix` with radix 10). -/
def parse_offset (s : List Char) : Option Nat :=
  if startsWith2 '0' 'x' s ∨ startsWith2 '0' 'X' s then parseU32Radix 16 (s.drop 2)
  else parseU32Radix 10 s

/-- The argument-and-lookup pipeline of `main`: reject an empty offset
list, parse every offset literal (the first failure aborts, as collecting
into `Result` does), then run the decode-and-lookup stage. -/
def mainModel (offsets : List (List Char)) (sm : SourceMap) :
    Except String (List LookupOutcome) :=
  if offsets.isEmpty then .error "Please provide at least one offset to query"
  else
    match offsets.mapM parse_offset with
    | none => .error "Invalid offset"
    | some qs => processMap sm qs

/-- Modelled from the spec: the repository has no VLQ encoder, so the
base64 alphabet map `A`-`Z`, `a`-`z`, `0`-`9`, `+`, `/` for 6-bit digits is
taken from the spec's encoding description (the inverse of `charDigit`). -/
def b64Char (d : Nat) : Char :=
  if d < 26 then Char.ofNat (65 + d)
  else if d < 52 then Char.ofNat (97 + (d - 26))
  else if d < 62 then Char.ofNat (48 + (d - 52))
  else if d = 62 then '+' else '/'

/-- Modelled from the spec: emit an unsigned value in 5-bit groups, least
significant first, setting bit 32 of every digit except the last as the
continuation flag.  The first argument is fuel, set to the value itself at
the entry point (the quotient chain shrinks much faster). -/
def encAux : Nat → Nat → List Char
  | 0, n => [b64Char (n % 32)]
  | fuel + 1, n =>
    if n < 32 then [b64Char n] else b64Char (32 + n % 32) :: encAux fuel (n / 32)

/-- Modelled from the spec: encode an unsigned VLQ value. -/
def encodeVlqNat (n : Nat) : List Char := encAux n n

/-- Modelled from the spec: encode a signed integer by moving its sign into
the least-significant bit of the shifted magnitude, then emitting the
base64 VLQ digits. -/
def vlq_encode (v : Int) : List Char :=
  encodeVlqNat (if v < 0 then 2 * (-v).toNat + 1 else 2 * v.toNat)

/-- Conversion of a finished VLQ accumulator value into the signed result,
as `vlq_decode` performs it: the low bit is the sign, the rest the
magnitude. -/
def vlqFinish (w : Int) : Int := (if w % 2 ≠ 0 then -1 else 1) * (w / 2)

/-- All segments of a mappings string in decode order, as decoded field
lists: groups are split on `;` (empty groups contribute nothing), each
group on `,`. -/
def flatFields (m : List Char) : List (List Int) :=
  (splitOnChar ';' m).flatMap
    (fun l => if l.isEmpty then [] else (splitOnChar ',' l).map vlq_decode)

/-- The decode loop expressed as a single flat pass over decoded field
lists: skip empty field lists, otherwise step the counters and push one
entry.  The counter state is threaded through the whole pass. -/
def foldFields (sources : List String) : DecodeState → List (List Int) →
    DecodeState × List MappingEntry
  | st, [] => (st, [])
  | st, fs :: rest =>
    if fs.isEmpty then foldFields sources st rest
    else
      let p1 := stepSeg sources st fs
      let p2 := foldFields sources p1.1 rest
      (p2.1, p1.2 :: p2.2)

/-- The field lists that actually produce entries: the nonempty ones. -/
def activeFields (fss : List (List Int)) : List (List Int) :=
  fss.filter (fun fs => !fs.isEmpty)

/-- The delta a segment applies to the running `gen_offset` counter. -/
def delta0 (fs : List Int) : Int := fs.headD 0

/-- The delta a segment applies to the running `source_index` counter
(only segments with at least 4 fields touch it). -/
def delta1 : List Int → Int
  | _ :: f1 :: _ :: _ :: _ => f1
  | _ => 0

/-- The delta a segment applies to the running `original_line` counter
(only segments with at least 4 fields touch it). -/
def delta2 : List Int → Int
  | _ :: _ :: f2 :: _ :: _ => f2
  | _ => 0

/-- The delta a segment applies to the running `original_column` counter
(only segments with at least 4 fields touch it). -/
def delta3 : List Int → Int
  | _ :: _ :: _ :: f3 :: _ => f3
  | _ => 0

/-- Cumulative sum of a per-segment delta over the first `k + 1` segments,
as an unbounded signed integer. -/
def cum (f : List Int → Int) (fss : List (List Int)) (k : Nat) : Int :=
  ((fss.take (k + 1)).map f).sum

/-- Closed form of the entry produced for the `k`-th nonempty segment of a
decode pass started in state `st0`: every counter is the initial value plus
the cumulative sum of the deltas seen so far, reduced to its machine
width. -/
def entryFrom (sources : List String) (st0 : DecodeState)
    (afs : List (List Int)) (k : Nat) (fs : List Int) : MappingEntry :=
  let gen := (st0.gen_offset + toU32 (cum delta0 afs k)) % 4294967296
  if 4 ≤ fs.length then
    { gen_offset := gen
      source := sources.get?
        (i32ToUsize (wrap32 (st0.source_index + cum delta1 afs k)))
      line := some (toU32 (wrap32 (st0.original_line + cum delta2 afs k) + 1))
      column := some (toU32 (wrap32 (st0.original_column + cum delta3 afs k))) }
  else { gen_offset := gen, source := none, line := none, column := none }

/-- A wrapped value absorbs an earlier wrap of the same width. -/
theorem wrap32_add_left (a b : Int) : wrap32 (wrap32 a + b) = wrap32 (a + b) := by
  unfold wrap32
  omega

/-- Chained mod-`2^32` additions collapse to a single one. -/
theorem toU32_chain (g : Nat) (a c : Int) :
    ((g + toU32 a) % 4294967296 + toU32 c) % 4294967296
      = (g + toU32 (a + c)) % 4294967296 := by
  unfold toU32
  omega

/-- Cumulative delta over a single leading segment. -/
theorem cum_zero (f : List Int → Int) (fs : List Int) (rest : List (List Int)) :
    cum f (fs :: rest) 0 = f fs := by
  simp [cum]

/-- Cumulative delta steps off the leading segment. -/
theorem cum_succ (f : List Int → Int) (fs : List Int) (rest : List (List Int)) (k : Nat) :
    cum f (fs :: rest) (k + 1) = f fs + cum f rest k := by
  simp [cum]

/-- The segment loop is the flat pass over the decoded field lists. -/
theorem foldSegs_eq_foldFields (sources : List String) :
    ∀ (segs : List (List Char)) (st : DecodeState),
      foldSegs sources st segs = foldFields sources st (segs.map vlq_decode) := by
  intro segs
  induction segs with
  | nil => intro st; rfl
  | cons s rest ih =>
    intro st
    simp only [foldSegs, foldFields, List.map_cons]
    by_cases h : (vlq_decode s).isEmpty
    · simp [h, ih]
    · simp [h, ih]

/-- The flat pass distributes over list concatenation, threading the
counter state through. -/
theorem foldFields_append (sources : List String) :
    ∀ (a b : List (List Int)) (st : DecodeState),
      foldFields sources st (a ++ b)
        = ((foldFields sources (foldFields sources st a).1 b).1,
           (foldFields sources st a).2
             ++ (foldFields sources (foldFields sources st a).1 b).2) := by
  intro a
  induction a with
  | nil => intro b st; simp [foldFields]
  | cons fs rest ih =>
    intro b st
    simp only [List.cons_append, foldFields]
    by_cases h : fs.isEmpty
    · simp [h, ih]
    · simp [h, ih]

/-- The group loop is the flat pass over all groups' decoded segments,
with no counter reset at group boundaries. -/
theorem foldLines_eq_foldFields (sources : List String) :
    ∀ (lines : List (List Char)) (st : DecodeState),
      foldLines sources st lines
        = foldFields sources st (lines.flatMap
            (fun l => if l.isEmpty then [] else (splitOnChar ',' l).map vlq_decode)) := by
  intro lines
  induction lines with
  | nil => intro st; rfl
  | cons l rest ih =>
    intro st
    simp only [foldLines, List.flatMap_cons]
    by_cases h : l.isEmpty
    · simp [h, ih]
    · simp only [h, if_neg, Bool.false_eq_true, not_false_eq_true,
        foldFields_append, foldSegs_eq_foldFields, ih]

/-- The whole decode pass equals the flat pass over all segments of the
mappings string. -/
theorem decode_eq_foldFields (sources : List String) (m : List Char) :
    decodeMappings sources m = (foldFields sources initState (flatFields m)).2 := by
  simp [decodeMappings, flatFields, foldLines_eq_foldFields]

/-- Empty field lists are skipped: the flat pass only sees the nonempty
ones. -/
theorem foldFields_active (sources : List String) :
    ∀ (fss : List (List Int)) (st : DecodeState),
      foldFields sources st fss = foldFields sources st (activeFields fss) := by
  intro fss
  induction fss with
  | nil => intro st; rfl
  | cons fs rest ih =>
    intro st
    by_cases h : fs.isEmpty
    · simp [foldFields, activeFields, h, ih]
    · simp only [activeFields, List.filter_cons, h, Bool.not_false, if_pos]
      simp only [foldFields, h, if_neg, Bool.false_eq_true, not_false_eq_true]
      rw [ih]
      rfl

/-- The flat pass produces exactly one entry per nonempty field list. -/
theorem foldFields_length (sources : List String) :
    ∀ (fss : List (List Int)) (st : DecodeState),
      ((foldFields sources st fss).2).length = (activeFields fss).length := by
  intro fss
  induction fss with
  | nil => intro st; rfl
  | cons fs rest ih =>
    intro st
    by_cases h : fs.isEmpty
    · simp [foldFields, activeFields, h, ih]
    · simp [foldFields, activeFields, h, ih]

/-- The stepped state's generated offset, uniformly over field shapes. -/
theorem stepSeg_gen (sources : List String) (st : DecodeState) (fs : List Int) :
    ((stepSeg sources st fs).1).gen_offset
      = (st.gen_offset + toU32 (delta0 fs)) % 4294967296 := by
  rcases fs with _ | ⟨f0, _ | ⟨f1, _ | ⟨f2, _ | ⟨f3, t⟩⟩⟩⟩ <;> rfl

/-- The stepped state's source index, folded into a following wrap. -/
theorem stepSeg_si (sources : List String) (st : DecodeState) (fs : List Int) (c : Int) :
    wrap32 (((stepSeg sources st fs).1).source_index + c)
      = wrap32 (st.source_index + (delta1 fs + c)) := by
  rcases fs with _ | ⟨f0, _ | ⟨f1, _ | ⟨f2, _ | ⟨f3, t⟩⟩⟩⟩ <;>
    simp [stepSeg, delta1, wrap32_add_left, add_assoc]

/-- The stepped state's original line, folded into a following wrap. -/
theorem stepSeg_ol (sources : List String) (st : DecodeState) (fs : List Int) (c : Int) :
    wrap32 (((stepSeg sources st fs).1).original_line + c)
      = wrap32 (st.original_line + (delta2 fs + c)) := by
  rcases fs with _ | ⟨f0, _ | ⟨f1, _ | ⟨f2, _ | ⟨f3, t⟩⟩⟩⟩ <;>
    simp [stepSeg, delta2, wrap32_add_left, add_assoc]

/-- The stepped state's original column, folded into a following wrap. -/
theorem stepSeg_oc (sources : List String) (st : DecodeState) (fs : List Int) (c : Int) :
    wrap32 (((stepSeg sources st fs).1).original_column + c)
      = wrap32 (st.original_column + (delta3 fs + c)) := by
  rcases fs with _ | ⟨f0, _ | ⟨f1, _ | ⟨f2, _ | ⟨f3, t⟩⟩⟩⟩ <;>
    simp [stepSeg, delta3, wrap32_add_left, add_assoc]

/-- Restating the closed-form entry of the tail pass from the stepped state
as the closed-form entry of the full pass, one position later. -/
theorem entryFrom_shift (sources : List String) (st : DecodeState)
    (fs0 : List Int) (rest : List (List Int)) (k : Nat) (fs : List Int) :
    entryFrom sources (stepSeg sources st fs0).1 rest k fs
      = entryFrom sources st (fs0 :: rest) (k + 1) fs := by
  unfold entryFrom
  rw [stepSeg_gen, cum_succ, toU32_chain]
  by_cases h4 : 4 ≤ fs.length
  · simp only [h4, if_pos]
    rw [cum_succ, cum_succ, cum_succ, stepSeg_si, stepSeg_ol, stepSeg_oc]
  · simp only [h4, if_neg, not_false_eq_true]

/-- The entry pushed by one step is the closed-form entry at position 0. -/
theorem stepSeg_entry (sources : List String) (st : DecodeState)
    (fs : List Int) (rest : List (List Int)) (h : fs.isEmpty = false) :
    (stepSeg sources st fs).2 = entryFrom sources st (fs :: rest) 0 fs := by
  rcases fs with _ | ⟨f0, _ | ⟨f1, _ | ⟨f2, _ | ⟨f3, t⟩⟩⟩⟩
  · simp at h
  · simp [stepSeg, entryFrom, cum_zero, delta0]
  · simp [stepSeg, entryFrom, cum_zero, delta0]
  · simp [stepSeg, entryFrom, cum_zero, delta0]
  · simp [stepSeg, entryFrom, cum_zero, delta0, delta1, delta2, delta3]

/-- Every entry of the flat pass is its closed-form entry: each counter in
it is the initial counter plus the cumulative sum of all deltas up to and
including its own segment. -/
theorem foldFields_get (sources : List String) :
    ∀ (afs : List (List Int)) (st : DecodeState) (k : Nat) (fs : List Int),
      (∀ g ∈ afs, g.isEmpty = false) →
      afs.get? k = some fs →
      ((foldFields sources st afs).2).get? k
        = some (entryFrom sources st afs k fs) := by
  intro afs
  induction afs with
  | nil => intro st k fs hact h; simp at h
  | cons fs0 rest ih =>
    intro st k fs hact h
    have h0 : fs0.isEmpty = false := hact fs0 (List.mem_cons_self fs0 rest)
    simp only [foldFields, h0, Bool.false_eq_true, if_false]
    cases k with
    | zero =>
      simp only [List.get?_cons_zero, Option.some.injEq] at h
      subst h
      simp only [List.get?_cons_zero, Option.some.injEq]
      exact stepSeg_entry sources st fs0 rest h0
    | succ k =>
      simp only [List.get?_cons_succ] at h
      simp only [List.get?_cons_succ]
      rw [ih (stepSeg sources st fs0).1 k fs
        (fun g hg => hact g (List.mem_cons_of_mem fs0 hg)) h]
      rw [entryFrom_shift]

/-- All members of the active field list are nonempty. -/
theorem active_all_nonempty (fss : List (List Int)) :
    ∀ g ∈ activeFields fss, g.isEmpty = false := by
  intro g hg
  have := List.of_mem_filter hg
  simpa using this

/-- Entry-level characterisation of the decode pass: the `k`-th entry is
the closed-form entry over the active segments, started from the all-zero
counters. -/
theorem decode_get (sources : List String) (m : List Char) (k : Nat) (fs : List Int)
    (h : (activeFields (flatFields m)).get? k = some fs) :
    (decodeMappings sources m).get? k
      = some (entryFrom sources initState (activeFields (flatFields m)) k fs) := by
  rw [decode_eq_foldFields, foldFields_active]
  exact foldFields_get sources _ initState k fs (active_all_nonempty _) h

/-- The decode pass produces exactly one entry per nonempty segment. -/
theorem decode_length (sources : List String) (m : List Char) :
    (decodeMappings sources m).length = (activeFields (flatFields m)).length := by
  rw [decode_eq_foldFields]
  exact foldFields_length sources _ initState

/-- Generated offset of a closed-form entry. -/
theorem entryFrom_gen (sources : List String) (st : DecodeState)
    (afs : List (List Int)) (k : Nat) (fs : List Int) :
    (entryFrom sources st afs k fs).gen_offset
      = (st.gen_offset + toU32 (cum delta0 afs k)) % 4294967296 := by
  unfold entryFrom
  split <;> rfl

/-- Source of a closed-form entry with at least 4 fields. -/
theorem entryFrom_source (sources : List String) (st : DecodeState)
    (afs : List (List Int)) (k : Nat) (fs : List Int) (h4 : 4 ≤ fs.length) :
    (entryFrom sources st afs k fs).source
      = sources.get? (i32ToUsize (wrap32 (st.source_index + cum delta1 afs k))) := by
  unfold entryFrom
  rw [if_pos h4]

/-- Line of a closed-form entry with at least 4 fields. -/
theorem entryFrom_line (sources : List String) (st : DecodeState)
    (afs : List (List Int)) (k : Nat) (fs : List Int) (h4 : 4 ≤ fs.length) :
    (entryFrom sources st afs k fs).line
      = some (toU32 (wrap32 (st.original_line + cum delta2 afs k) + 1)) := by
  unfold entryFrom
  rw [if_pos h4]

/-- Column of a closed-form entry with at least 4 fields. -/
theorem entryFrom_column (sources : List String) (st : DecodeState)
    (afs : List (List Int)) (k : Nat) (fs : List Int) (h4 : 4 ≤ fs.length) :
    (entryFrom sources st afs k fs).column
      = some (toU32 (wrap32 (st.original_column + cum delta3 afs k))) := by
  unfold entryFrom
  rw [if_pos h4]

/-- C3: during a full decode, the four running counters accumulate deltas
across every semicolon group and every comma segment without reset — the
decode equals one flat stateful pass over all segments, and each entry's
fields are the cumulative sums of all deltas seen so far (reduced to their
machine width), `gen_offset` included. -/
theorem claim_C3 (sources : List String) (m : List Char) :
    decodeMappings sources m = (foldFields sources initState (flatFields m)).2
    ∧ ∀ (k : Nat) (fs : List Int),
        (activeFields (flatFields m)).get? k = some fs →
        (decodeMappings sources m).get? k
          = some (entryFrom sources initState (activeFields (flatFields m)) k fs) :=
  ⟨decode_eq_foldFields sources m, fun k fs h => decode_get sources m k fs h⟩

/-- Witness for C3 at the mappings string `"C;C"`: the second segment's
offset continues from the first across the `;` boundary (1, then 2). -/
theorem claim_C3_witness :
    (decodeMappings [] ("C;C".data)).get? 1
      = some (entryFrom [] initState (activeFields (flatFields ("C;C".data))) 1 [1])
    ∧ (decodeMappings [] ("C;C".data)).get? 1
      = some ⟨2, none, none, none⟩ :=
  ⟨(claim_C3 [] ("C;C".data)).2 1 [1] (by decide), by decide⟩

/-- C10: the running `gen_offset` is updated by reinterpreting the signed
first-field delta as `u32` and adding with wrapping arithmetic, so every
entry's offset is the signed cumulative sum reduced mod `2^32` — negative
deltas and overflowing sums wrap silently, and an entry is always
produced (the update cannot fail). -/
theorem claim_C10 (sources : List String) (m : List Char) (k : Nat) (fs : List Int)
    (h : (activeFields (flatFields m)).get? k = some fs) :
    ∃ e, (decodeMappings sources m).get? k = some e
      ∧ (e.gen_offset : Int) = cum delta0 (activeFields (flatFields m)) k % 4294967296
      ∧ e.gen_offset < 4294967296 := by
  refine ⟨_, decode_get sources m k fs h, ?_, ?_⟩
  · rw [entryFrom_gen]
    show (((initState.gen_offset + toU32 _) % 4294967296 : Nat) : Int) = _
    simp only [initState]
    unfold toU32
    omega
  · rw [entryFrom_gen]
    omega

/-- Witness for C10: the single segment `"D"` has delta `-1`, and the
produced entry's offset is `-1 mod 2^32 = 4294967295`. -/
theorem claim_C10_witness :
    ∃ e, (decodeMappings [] ("D".data)).get? 0 = some e
      ∧ (e.gen_offset : Int) = cum delta0 (activeFields (flatFields ("D".data))) 0 % 4294967296
      ∧ e.gen_offset < 4294967296 :=
  claim_C10 [] ("D".data) 0 [-1] (by decide)

/-- C6: for every decoded segment with at least 4 fields, the entry's line
is the cumulative `original_line` counter plus one (1-based) and its
column is the cumulative `original_column` counter as-is; and in the
concrete scenario `"AAAA,UAASA,KAAK"` with sources `["a.ts"]`, query 0
resolves to generated offset 0 with `source="a.ts"`, `line=1`,
`column=0`. -/
theorem claim_C6 :
    (∀ (sources : List String) (m : List Char) (k : Nat) (fs : List Int),
        (activeFields (flatFields m)).get? k = some fs → 4 ≤ fs.length →
        ∃ e, (decodeMappings sources m).get? k = some e
          ∧ e.line = some (toU32 (wrap32 (cum delta2 (activeFields (flatFields m)) k) + 1))
          ∧ e.column = some (toU32 (wrap32 (cum delta3 (activeFields (flatFields m)) k))))
    ∧ decodeMappings ["a.ts"] ("AAAA,UAASA,KAAK".data)
        = [⟨0, some "a.ts", some 1, some 0⟩,
           ⟨10, some "a.ts", some 1, some 9⟩,
           ⟨15, some "a.ts", some 1, some 14⟩]
    ∧ get_source (sortEntries (decodeMappings ["a.ts"] ("AAAA,UAASA,KAAK".data))) 0
        = .direct ⟨0, some "a.ts", some 1, some 0⟩ := by
  refine ⟨?_, by decide, by decide⟩
  intro sources m k fs h h4
  refine ⟨_, decode_get sources m k fs h, ?_, ?_⟩
  · rw [entryFrom_line sources initState _ k fs h4]
    simp [initState]
  · rw [entryFrom_column sources initState _ k fs h4]
    simp [initState]

/-- Witness for C6's general part at the all-zero segment `"AAAA"`. -/
theorem claim_C6_witness :
    ∃ e, (decodeMappings [] ("AAAA".data)).get? 0 = some e
      ∧ e.line = some (toU32 (wrap32 (cum delta2 (activeFields (flatFields ("AAAA".data))) 0) + 1))
      ∧ e.column = some (toU32 (wrap32 (cum delta3 (activeFields (flatFields ("AAAA".data))) 0))) :=
  claim_C6.1 [] ("AAAA".data) 0 [0, 0, 0, 0] (by decide) (by decide)

/-- C8: a segment with at least 4 fields whose cumulative source index is
out of range still produces its entry, with `source = none` but line and
column set; the decode drops nothing (one entry per nonempty segment) and
every entry, this one and all others, keeps its closed form. -/
theorem claim_C8 (sources : List String) (m : List Char) (k : Nat) (fs : List Int)
    (h : (activeFields (flatFields m)).get? k = some fs) (h4 : 4 ≤ fs.length)
    (hout : sources.get?
        (i32ToUsize (wrap32 (cum delta1 (activeFields (flatFields m)) k))) = none) :
    (decodeMappings sources m).length = (activeFields (flatFields m)).length
    ∧ (∃ e, (decodeMappings sources m).get? k = some e
        ∧ e.source = none ∧ e.line.isSome ∧ e.column.isSome)
    ∧ ∀ (j : Nat) (fs2 : List Int),
        (activeFields (flatFields m)).get? j = some fs2 →
        (decodeMappings sources m).get? j
          = some (entryFrom sources initState (activeFields (flatFields m)) j fs2) := by
  refine ⟨decode_length sources m, ⟨_, decode_get sources m k fs h, ?_, ?_, ?_⟩,
    fun j fs2 hj => decode_get sources m j fs2 hj⟩
  · rw [entryFrom_source sources initState _ k fs h4]
    simpa [initState] using hout
  · rw [entryFrom_line sources initState _ k fs h4]
    rfl
  · rw [entryFrom_column sources initState _ k fs h4]
    rfl

/-- Witness for C8: `"AAAA"` against an empty sources list. -/
theorem claim_C8_witness :
    (decodeMappings [] ("AAAA".data)).length
        = (activeFields (flatFields ("AAAA".data))).length
    ∧ (∃ e, (decodeMappings [] ("AAAA".data)).get? 0 = some e
        ∧ e.source = none ∧ e.line.isSome ∧ e.column.isSome)
    ∧ ∀ (j : Nat) (fs2 : List Int),
        (activeFields (flatFields ("AAAA".data))).get? j = some fs2 →
        (decodeMappings [] ("AAAA".data)).get? j
          = some (entryFrom [] initState (activeFields (flatFields ("AAAA".data))) j fs2) :=
  claim_C8 [] ("AAAA".data) 0 [0, 0, 0, 0] (by decide) (by decide) (by decide)

/-- C5 as stated is false on the code: `"AAAA"` with an empty sources list
yields an entry whose line and column are set while its source is absent. -/
theorem claim_C5_counterexample :
    decodeMappings [] ("AAAA".data) = [⟨0, none, some 1, some 0⟩]
    ∧ ¬ (∀ e ∈ decodeMappings [] ("AAAA".data), (e.line.isSome ↔ e.source.isSome)) := by
  constructor
  · decide
  · decide

/-- C5 (amended): line and column are always present together, and a
present source implies a present line and column; but an out-of-range
source index can leave `source` absent with line and column still set. -/
theorem claim_C5_amended (sources : List String) (m : List Char) (e : MappingEntry)
    (he : e ∈ decodeMappings sources m) :
    (e.line.isSome ↔ e.column.isSome)
    ∧ (e.source.isSome → e.line.isSome ∧ e.column.isSome) := by
  obtain ⟨k, hk⟩ := List.mem_iff_get?.mp he
  have hk1 : k < (decodeMappings sources m).length := (List.get?_eq_some.mp hk).1
  have hk2 : k < (activeFields (flatFields m)).length := by
    rw [← decode_length sources m]
    exact hk1
  obtain ⟨fs, hfs⟩ : ∃ fs, (activeFields (flatFields m)).get? k = some fs :=
    ⟨_, List.get?_eq_get hk2⟩
  rw [decode_get sources m k fs hfs, Option.some.injEq] at hk
  subst hk
  unfold entryFrom
  split
  · simp
  · simp

/-- Witness for the amended C5 at the counterexample entry itself. -/
theorem claim_C5_amended_witness :
    ((⟨0, none, some 1, some 0⟩ : MappingEntry).line.isSome
        ↔ (⟨0, none, some 1, some 0⟩ : MappingEntry).column.isSome)
    ∧ ((⟨0, none, some 1, some 0⟩ : MappingEntry).source.isSome
        → (⟨0, none, some 1, some 0⟩ : MappingEntry).line.isSome
          ∧ (⟨0, none, some 1, some 0⟩ : MappingEntry).column.isSome) :=
  claim_C5_amended [] ("AAAA".data) ⟨0, none, some 1, some 0⟩ (by decide)

/-- A decode of the empty mappings string yields no entries. -/
theorem decode_empty_string (sources : List String) :
    decodeMappings sources [] = [] := rfl

/-- C7: when the decode yields zero entries the lookup stage fails with a
fatal error before any lookup runs; when at least one entry is decoded the
error is not raised and every query is resolved; the empty mappings string
is such a zero-entry input. -/
theorem claim_C7 (sm : SourceMap) (qs : List Nat) :
    (decodeMappings sm.sources sm.mappings = [] →
      processMap sm qs = .error "No mapping entries parsed")
    ∧ (decodeMappings sm.sources sm.mappings ≠ [] →
      processMap sm qs = .ok (qs.map (fun q =>
        get_source (sortEntries (decodeMappings sm.sources sm.mappings)) q)))
    ∧ decodeMappings sm.sources [] = [] := by
  refine ⟨fun h => ?_, fun h => ?_, rfl⟩
  · simp [processMap, h]
  · simp [processMap, h]

/-- Witness for C7: an empty mappings string is a fatal decode-empty
error, and a one-entry map resolves its queries. -/
theorem claim_C7_witness :
    processMap ⟨3, [], [], []⟩ [0, 7] = .error "No mapping entries parsed"
    ∧ processMap ⟨3, [], [], "C".data⟩ [7]
        = .ok [get_source (sortEntries (decodeMappings [] ("C".data))) 7] :=
  ⟨(claim_C7 ⟨3, [], [], []⟩ [0, 7]).1 rfl,
   (claim_C7 ⟨3, [], [], "C".data⟩ [7]).2.1 (by decide)⟩

/-- A parse failure inside the list makes the whole `mapM` fail. -/
theorem mapM_parse_offset_none (l : List (List Char)) (s : List Char)
    (hs : s ∈ l) (hp : parse_offset s = none) :
    l.mapM parse_offset = none := by
  induction l with
  | nil => cases hs
  | cons a rest ih =>
    rw [List.mapM_cons]
    rcases List.mem_cons.mp hs with h | h
    · subst h
      rw [hp]
      rfl
    · cases hpa : parse_offset a
      · rfl
      · rw [ih h]
        rfl

/-- When the whole `mapM` succeeds, every literal parses. -/
theorem mapM_parse_offset_some (l : List (List Char)) (qs : List Nat)
    (h : l.mapM parse_offset = some qs) :
    ∀ s ∈ l, ∃ v, parse_offset s = some v := by
  induction l generalizing qs with
  | nil => intro s hs; cases hs
  | cons a rest ih =>
    rw [List.mapM_cons] at h
    intro s hs
    cases hpa : parse_offset a with
    | none => rw [hpa] at h; cases h
    | some v =>
      rw [hpa] at h
      rcases List.mem_cons.mp hs with h2 | h2
      · exact h2 ▸ ⟨v, hpa⟩
      · cases hrest : rest.mapM parse_offset with
        | none => rw [hrest] at h; cases h
        | some vs => exact ih vs hrest s h2

/-- C9: each offset literal is parsed independently (decimal, or
hexadecimal after a `0x`/`0X` prefix); an unparseable literal, like an
empty offset list, is a fatal error whose message does not depend on the
source map at all — it is raised before any lookup work; and a successful
run requires every literal to have parsed. -/
theorem claim_C9 :
    (∀ offsets : List (List Char),
      (offsets = [] ∨ ∃ s ∈ offsets, parse_offset s = none) →
      ∃ msg, ∀ sm : SourceMap, mainModel offsets sm = .error msg)
    ∧ ∀ (offsets : List (List Char)) (sm : SourceMap) (outs : List LookupOutcome),
        mainModel offsets sm = .ok outs →
        offsets ≠ [] ∧ ∀ s ∈ offsets, ∃ v, parse_offset s = some v := by
  constructor
  · intro offsets hbad
    rcases hbad with rfl | ⟨s, hs, hp⟩
    · exact ⟨"Please provide at least one offset to query", fun sm => rfl⟩
    · refine ⟨"Invalid offset", fun sm => ?_⟩
      have hne : offsets.isEmpty = false := by
        cases offsets
        · cases hs
        · rfl
      unfold mainModel
      rw [if_neg (by simp [hne]), mapM_parse_offset_none offsets s hs hp]
  · intro offsets sm outs h
    unfold mainModel at h
    by_cases hne : offsets.isEmpty
    · rw [if_pos hne] at h
      cases h
    · rw [if_neg hne] at h
      refine ⟨by simpa using hne, ?_⟩
      cases hm : offsets.mapM parse_offset with
      | none => rw [hm] at h; cases h
      | some qs => exact mapM_parse_offset_some offsets qs hm

/-- Witness for C9: the literal `"zz"` is unparseable, and the resulting
fatal error is the same whatever source map would have been consulted. -/
theorem claim_C9_witness :
    ∃ msg, ∀ sm : SourceMap, mainModel ["zz".data] sm = .error msg :=
  claim_C9.1 ["zz".data] (Or.inr ⟨"zz".data, by decide, by decide⟩)

/-- In-range default reads are plain list reads. -/
theorem getD_eq_get_of_lt (entries : List MappingEntry) (i : Nat)
    (h : i < entries.length) :
    entries.getD i defaultEntry = entries.get ⟨i, h⟩ := by
  rw [List.getD_eq_get?, List.get?_eq_get h]
  rfl

/-- Strictly sorted entries have strictly increasing keys at all index
pairs. -/
theorem mono_of_pairwise (entries : List MappingEntry)
    (hs : entries.Pairwise (fun a b => a.gen_offset < b.gen_offset)) :
    ∀ i j, i < j → j < entries.length → keyAt entries i < keyAt entries j := by
  intro i j hij hj
  have hi : i < entries.length := lt_trans hij hj
  have hr := List.pairwise_iff_get.mp hs ⟨i, hi⟩ ⟨j, hj⟩ (Fin.mk_lt_mk.mpr hij)
  unfold keyAt
  rw [getD_eq_get_of_lt entries i hi, getD_eq_get_of_lt entries j hj]
  exact hr

/-- Invariant-based specification of the binary search loop: on strictly
increasing keys, an `ok` result names an exact match, and an `error`
result is the insertion point, with everything below it strictly smaller
than the target and everything at or above it strictly greater. -/
theorem bsearchAux_spec (entries : List MappingEntry) (target : Nat)
    (hmono : ∀ i j, i < j → j < entries.length → keyAt entries i < keyAt entries j) :
    ∀ (fuel left right : Nat), left ≤ right → right ≤ entries.length →
      right - left ≤ fuel →
      (∀ j, j < left → keyAt entries j < target) →
      (∀ j, right ≤ j → j < entries.length → target < keyAt entries j) →
      (∃ i, bsearchAux entries target fuel left right = .ok i
          ∧ i < entries.length ∧ keyAt entries i = target)
      ∨ (∃ i, bsearchAux entries target fuel left right = .error i
          ∧ i ≤ entries.length
          ∧ (∀ j, j < i → keyAt entries j < target)
          ∧ (∀ j, i ≤ j → j < entries.length → target < keyAt entries j)) := by
  intro fuel
  induction fuel with
  | zero =>
    intro left right hlr hrlen hfuel hlo hhi
    right
    exact ⟨left, rfl, le_trans hlr hrlen, hlo,
      fun j hj hjlen => hhi j (by omega) hjlen⟩
  | succ fuel ih =>
    intro left right hlr hrlen hfuel hlo hhi
    by_cases hlt : left < right
    · rw [bsearchAux, if_pos hlt]
      have hmid2 : left + (right - left) / 2 < right := by omega
      have hmidlen : left + (right - left) / 2 < entries.length :=
        lt_of_lt_of_le hmid2 hrlen
      by_cases h1 : keyAt entries (left + (right - left) / 2) < target
      · rw [if_pos h1]
        refine ih (left + (right - left) / 2 + 1) right (by omega) hrlen (by omega)
          (fun j hj => ?_) hhi
        rcases Nat.lt_or_ge j (left + (right - left) / 2) with hj2 | hj2
        · exact lt_trans (hmono j (left + (right - left) / 2) hj2 hmidlen) h1
        · have : j = left + (right - left) / 2 := by omega
          exact this ▸ h1
      · rw [if_neg h1]
        by_cases h2 : target < keyAt entries (left + (right - left) / 2)
        · rw [if_pos h2]
          refine ih left (left + (right - left) / 2) (by omega)
            (le_of_lt hmidlen) (by omega) hlo (fun j hj hjlen => ?_)
          rcases Nat.eq_or_lt_of_le hj with hj2 | hj2
          · exact hj2 ▸ h2
          · exact lt_trans h2 (hmono (left + (right - left) / 2) j hj2 hjlen)
        · rw [if_neg h2]
          exact Or.inl ⟨left + (right - left) / 2, rfl, hmidlen, by omega⟩
    · rw [bsearchAux, if_neg hlt]
      right
      exact ⟨left, rfl, le_trans (by omega) hrlen, hlo,
        fun j hj hjlen => hhi j (by omega) hjlen⟩

/-- Whatever the selected index holds, the reported best match is the
entry at that index. -/
theorem resolveAt_best (entries : List MappingEntry) (i : Nat) (e : MappingEntry)
    (h : entries.get? i = some e) :
    (resolveAt entries i).best = some e := by
  unfold resolveAt
  simp only [h]
  by_cases hsrc : e.source.isNone = true
  · rw [if_pos hsrc]
    cases hf : (entries.take i).reverse.find? (fun p => p.source.isSome) <;>
      simp [hf, LookupOutcome.best]
  · rw [if_neg hsrc]
    rfl

/-- C1: on a table with strictly increasing generated offsets, the
resolver reports "no mapping found" exactly when no entry's offset is at
or below the query, and otherwise selects (as its best match) an entry of
the table whose offset is the largest one at or below the query. -/
theorem claim_C1 (entries : List MappingEntry) (target : Nat)
    (hs : entries.Pairwise (fun a b => a.gen_offset < b.gen_offset)) :
    ((∀ e ∈ entries, target < e.gen_offset) →
      get_source entries target = .noMapping)
    ∧ (∀ e0 ∈ entries, e0.gen_offset ≤ target →
        ∃ best, (get_source entries target).best = some best
          ∧ best ∈ entries ∧ best.gen_offset ≤ target
          ∧ ∀ e ∈ entries, e.gen_offset ≤ target →
              e.gen_offset ≤ best.gen_offset) := by
  have hmono := mono_of_pairwise entries hs
  have hspec := bsearchAux_spec entries target hmono entries.length 0 entries.length
    (Nat.zero_le _) (le_refl _) (by omega)
    (fun j hj => absurd hj (Nat.not_lt_zero j))
    (fun j hj hjlen => absurd hjlen (by omega))
  constructor
  · intro hall
    rcases hspec with ⟨i, heq, hilen, hkey⟩ | ⟨i, heq, hilen, hlo, hhi⟩
    · exfalso
      have hmem : entries.getD i defaultEntry ∈ entries := by
        rw [getD_eq_get_of_lt entries i hilen]
        exact List.get_mem entries i hilen
      have := hall _ hmem
      unfold keyAt at hkey
      omega
    · have hi0 : i = 0 := by
        by_contra h0
        have h1 : 0 < i := Nat.pos_of_ne_zero h0
        have hlen0 : 0 < entries.length := by omega
        have hmem : entries.getD 0 defaultEntry ∈ entries := by
          rw [getD_eq_get_of_lt entries 0 hlen0]
          exact List.get_mem entries 0 hlen0
        have h2 := hlo 0 h1
        have h3 := hall _ hmem
        unfold keyAt at h2
        omega
      subst hi0
      unfold get_source bsearch
      rw [heq]
  · intro e0 he0 hle
    obtain ⟨n, hn⟩ := List.mem_iff_get.mp he0
    have hkeyn : keyAt entries n.1 ≤ target := by
      unfold keyAt
      rw [getD_eq_get_of_lt entries n.1 n.2, Fin.eta, hn]
      exact hle
    rcases hspec with ⟨i, heq, hilen, hkey⟩ | ⟨i, heq, hilen, hlo, hhi⟩
    · have hgi : entries.get? i = some (entries.getD i defaultEntry) := by
        rw [List.get?_eq_get hilen, getD_eq_get_of_lt entries i hilen]
      refine ⟨entries.getD i defaultEntry, ?_, ?_, ?_, ?_⟩
      · unfold get_source bsearch
        rw [heq]
        exact resolveAt_best entries i _ hgi
      · rw [getD_eq_get_of_lt entries i hilen]
        exact List.get_mem entries i hilen
      · unfold keyAt at hkey
        omega
      · intro e he hele
        unfold keyAt at hkey
        omega
    · have hipos : 0 < i := by
        by_contra h0
        have hi0 : i = 0 := by omega
        subst hi0
        have := hhi n.1 (Nat.zero_le _) n.2
        omega
      obtain ⟨i2, rfl⟩ : ∃ i2, i = i2 + 1 := ⟨i - 1, by omega⟩
      have hi2len : i2 < entries.length := by omega
      have hgi : entries.get? i2 = some (entries.getD i2 defaultEntry) := by
        rw [List.get?_eq_get hi2len, getD_eq_get_of_lt entries i2 hi2len]
      have hkeyi2 := hlo i2 (by omega)
      refine ⟨entries.getD i2 defaultEntry, ?_, ?_, ?_, ?_⟩
      · unfold get_source bsearch
        rw [heq]
        exact resolveAt_best entries i2 _ hgi
      · rw [getD_eq_get_of_lt entries i2 hi2len]
        exact List.get_mem entries i2 hi2len
      · unfold keyAt at hkeyi2
        omega
      · intro e he hele
        obtain ⟨j, hj⟩ := List.mem_iff_get.mp he
        have hkeyj : keyAt entries j.1 = e.gen_offset := by
          unfold keyAt
          rw [getD_eq_get_of_lt entries j.1 j.2, Fin.eta, hj]
        rcases Nat.lt_or_ge j.1 (i2 + 1) with hji | hji
        · rcases Nat.eq_or_lt_of_le (Nat.le_of_lt_succ hji) with hj2 | hj2
          · unfold keyAt at hkeyj hkeyi2
            rw [hj2] at hkeyj
            omega
          · have := hmono j.1 i2 hj2 hi2len
            unfold keyAt at this hkeyj hkeyi2
            omega
        · have := hhi j.1 hji j.2
          omega

/-- Witness for C1 on a two-entry table queried between and beyond its
offsets. -/
theorem claim_C1_witness :
    ∃ best,
      (get_source [⟨0, some "a.ts", some 1, some 0⟩, ⟨10, none, none, none⟩] 12).best
          = some best
        ∧ best ∈ [⟨0, some "a.ts", some 1, some 0⟩, ⟨10, none, none, none⟩]
        ∧ best.gen_offset ≤ 12
        ∧ ∀ e ∈ [(⟨0, some "a.ts", some 1, some 0⟩ : MappingEntry), ⟨10, none, none, none⟩],
            e.gen_offset ≤ 12 → e.gen_offset ≤ best.gen_offset :=
  (claim_C1 [⟨0, some "a.ts", some 1, some 0⟩, ⟨10, none, none, none⟩] 12
      (by decide)).2
    ⟨10, none, none, none⟩ (by decide) (by decide)

/-- A successful backward scan (`rfind`, modelled as `find?` on the
reversed list) returns the last element satisfying the predicate: it is in
the list, it satisfies the predicate, and no later element does. -/
theorem rfind_some_spec {α : Type} (p : α → Bool) :
    ∀ (ys : List α) (a : α), ys.reverse.find? p = some a →
      ∃ k, k < ys.length ∧ ys.get? k = some a ∧ p a = true
        ∧ ∀ j b, k < j → j < ys.length → ys.get? j = some b → p b = false := by
  intro ys
  induction ys using List.reverseRecOn with
  | nil =>
    intro a h
    simp at h
  | append_singleton ys b ih =>
    intro a h
    rw [List.reverse_concat] at h
    cases hpb : p b with
    | true =>
      rw [List.find?_cons_of_pos _ hpb, Option.some.injEq] at h
      subst h
      refine ⟨ys.length, by simp, List.get?_concat_length ys b, hpb, ?_⟩
      intro j c hkj hjlen hjc
      simp at hjlen
      omega
    | false =>
      rw [List.find?_cons_of_neg _ (by simp [hpb])] at h
      obtain ⟨k, hk1, hk2, hk3, hk4⟩ := ih a h
      refine ⟨k, by simp; omega, ?_, hk3, ?_⟩
      · rw [List.get?_append hk1]
        exact hk2
      · intro j c hkj hjlen hjc
        have hjlen2 : j < ys.length + 1 := by simpa using hjlen
        by_cases hj : j < ys.length
        · rw [List.get?_append hj] at hjc
          exact hk4 j c hkj hj hjc
        · have hje : j = ys.length := by omega
          subst hje
          rw [List.get?_concat_length ys b, Option.some.injEq] at hjc
          subst hjc
          exact hpb

/-- A failed backward scan means no element satisfies the predicate. -/
theorem rfind_none_spec {α : Type} (p : α → Bool) (ys : List α)
    (h : ys.reverse.find? p = none) :
    ∀ b ∈ ys, p b = false := by
  intro b hb
  have := List.find?_eq_none.mp h b (List.mem_reverse.mpr hb)
  simpa using this

/-- Every outcome of `get_source` is either the early no-mapping report or
the report for some selected index. -/
theorem get_source_cases (entries : List MappingEntry) (target : Nat) :
    get_source entries target = .noMapping
    ∨ ∃ idx, get_source entries target = resolveAt entries idx := by
  unfold get_source
  cases hb : bsearch entries target with
  | ok i => exact Or.inr ⟨i, rfl⟩
  | error i =>
    cases i with
    | zero => exact Or.inl rfl
    | succ i2 => exact Or.inr ⟨i2, rfl⟩

/-- Inversion of the source-less-with-fallback report. -/
theorem resolveAt_internalPrev (entries : List MappingEntry) (idx : Nat)
    (best ts : MappingEntry)
    (h : resolveAt entries idx = .internalPrev best ts) :
    entries.get? idx = some best ∧ best.source = none
    ∧ (entries.take idx).reverse.find? (fun p => p.source.isSome) = some ts := by
  unfold resolveAt at h
  cases hg : entries.get? idx with
  | none => rw [hg] at h; cases h
  | some e =>
    rw [hg] at h
    simp only [] at h
    by_cases hsrc : e.source.isNone = true
    · rw [if_pos hsrc] at h
      cases hf : (entries.take idx).reverse.find? (fun p => p.source.isSome) with
      | none => rw [hf] at h; cases h
      | some ts2 =>
        rw [hf] at h
        injection h with h1 h2
        subst h1
        subst h2
        exact ⟨rfl, Option.isNone_iff_eq_none.mp hsrc, rfl⟩
    · rw [if_neg hsrc] at h
      cases h

/-- Inversion of the source-less-without-fallback report. -/
theorem resolveAt_internalNoPrev (entries : List MappingEntry) (idx : Nat)
    (best : MappingEntry)
    (h : resolveAt entries idx = .internalNoPrev best) :
    entries.get? idx = some best ∧ best.source = none
    ∧ (entries.take idx).reverse.find? (fun p => p.source.isSome) = none := by
  unfold resolveAt at h
  cases hg : entries.get? idx with
  | none => rw [hg] at h; cases h
  | some e =>
    rw [hg] at h
    simp only [] at h
    by_cases hsrc : e.source.isNone = true
    · rw [if_pos hsrc] at h
      cases hf : (entries.take idx).reverse.find? (fun p => p.source.isSome) with
      | none =>
        rw [hf] at h
        injection h with h1
        subst h1
        exact ⟨rfl, Option.isNone_iff_eq_none.mp hsrc, rfl⟩
      | some ts2 => rw [hf] at h; cases h
    · rw [if_neg hsrc] at h
      cases h

/-- C2: when the floor search matches a source-less entry, the reported
fallback is the nearest entry preceding the match (in sorted order) whose
source is present — every entry strictly between it and the match is
source-less; and when no preceding entry has a source, the no-prior-source
outcome is reported, with every preceding entry source-less.  Both are
ordinary outcomes of the total resolver, not errors. -/
theorem claim_C2 (entries : List MappingEntry) (target : Nat)
    (_hs : entries.Pairwise (fun a b => a.gen_offset < b.gen_offset)) :
    (∀ best ts, get_source entries target = .internalPrev best ts →
        best.source = none ∧ ts.source.isSome = true
        ∧ ∃ i k, entries.get? i = some best ∧ k < i ∧ entries.get? k = some ts
          ∧ ∀ j e2, k < j → j < i → entries.get? j = some e2 → e2.source = none)
    ∧ (∀ best, get_source entries target = .internalNoPrev best →
        best.source = none
        ∧ ∃ i, entries.get? i = some best
          ∧ ∀ j e2, j < i → entries.get? j = some e2 → e2.source = none) := by
  constructor
  · intro best ts h
    rcases get_source_cases entries target with hc | ⟨idx, hc⟩
    · rw [h] at hc
      cases hc
    · rw [h] at hc
      obtain ⟨hg, hbn, hf⟩ := resolveAt_internalPrev entries idx best ts hc.symm
      obtain ⟨k, hk1, hk2, hk3, hk4⟩ := rfind_some_spec _ (entries.take idx) ts hf
      have hidxlen : idx < entries.length := by
        rcases List.get?_eq_some.mp hg with ⟨hl, _⟩
        exact hl
      have htklen : (entries.take idx).length = idx ⊓ entries.length :=
        List.length_take idx entries
      have hkidx : k < idx := by omega
      refine ⟨hbn, hk3, idx, k, hg, hkidx, ?_, ?_⟩
      · rw [← List.get?_take hkidx]
        exact hk2
      · intro j e2 hkj hji hje2
        have hj2 : (entries.take idx).get? j = some e2 := by
          rw [List.get?_take hji]
          exact hje2
        have hjlen : j < (entries.take idx).length := by
          rcases List.get?_eq_some.mp hj2 with ⟨hl, _⟩
          exact hl
        have hfalse := hk4 j e2 hkj hjlen hj2
        exact Option.not_isSome_iff_eq_none.mp (by simp [hfalse])
  · intro best h
    rcases get_source_cases entries target with hc | ⟨idx, hc⟩
    · rw [h] at hc
      cases hc
    · rw [h] at hc
      obtain ⟨hg, hbn, hf⟩ := resolveAt_internalNoPrev entries idx best hc.symm
      refine ⟨hbn, idx, hg, ?_⟩
      intro j e2 hji hje2
      have hmem : e2 ∈ entries.take idx := by
        refine List.get?_mem (n := j) ?_
        rw [List.get?_take hji]
        exact hje2
      have := rfind_none_spec _ (entries.take idx) hf e2 hmem
      exact Option.not_isSome_iff_eq_none.mp (by simp [this])

/-- Witness for C2 on a three-entry table whose floor match at query 5 is
the source-less entry at offset 4, with the sourced entry at offset 0
reported as the closest prior source. -/
theorem claim_C2_witness :
    (⟨4, none, none, none⟩ : MappingEntry).source = none
    ∧ (⟨0, some "a.ts", some 1, some 0⟩ : MappingEntry).source.isSome = true
    ∧ ∃ i k,
        ([⟨0, some "a.ts", some 1, some 0⟩, ⟨4, none, none, none⟩,
            ⟨10, none, none, none⟩] : List MappingEntry).get? i
            = some ⟨4, none, none, none⟩
        ∧ k < i
        ∧ ([⟨0, some "a.ts", some 1, some 0⟩, ⟨4, none, none, none⟩,
            ⟨10, none, none, none⟩] : List MappingEntry).get? k
            = some ⟨0, some "a.ts", some 1, some 0⟩
        ∧ ∀ j e2, k < j → j < i →
            ([⟨0, some "a.ts", some 1, some 0⟩, ⟨4, none, none, none⟩,
                ⟨10, none, none, none⟩] : List MappingEntry).get? j = some e2 →
            e2.source = none :=
  (claim_C2 [⟨0, some "a.ts", some 1, some 0⟩, ⟨4, none, none, none⟩,
      ⟨10, none, none, none⟩] 5 (by decide)).1
    ⟨4, none, none, none⟩ ⟨0, some "a.ts", some 1, some 0⟩ (by decide)

/-- Decoding inverts the base64 alphabet on all 6-bit digits. -/
theorem charDigit_b64Char : ∀ d, d < 64 → charDigit (b64Char d) = some (d : Int) := by
  decide

/-- Integers already in the `i32` range are fixed by the wrap. -/
theorem wrap32_of_range (x : Int) (h1 : 0 ≤ x) (h2 : x < 2147483648) :
    wrap32 x = x := by
  unfold wrap32
  omega

/-- One step of the VLQ decode loop on a recognised character. -/
theorem vlqLoop_cons (c : Char) (d : Int) (hc : charDigit c = some d)
    (cs : List Char) (value : Int) (shift : Nat) (res : List Int) :
    vlqLoop (c :: cs) value shift res =
      if 32 ≤ d then
        vlqLoop cs (wrap32 (value + wrap32 (d % 32 * 2 ^ (shift % 32)))) (shift + 5) res
      else
        vlqLoop cs 0 0
          (res ++ [vlqFinish (wrap32 (value + wrap32 (d % 32 * 2 ^ (shift % 32))))]) := by
  simp only [vlqLoop, hc, vlqFinish, decide_eq_true_eq]

/-- The last digit of an encoded value finishes the current VLQ value:
decoding consumes it, pushes the accumulated value, and resets. -/
theorem vlqLoop_final_digit (n value shift : Nat) (res : List Int) (rest : List Char)
    (hn : n < 32) (hval : value + n * 2 ^ shift < 2147483648) (hshift : shift ≤ 30) :
    vlqLoop (b64Char n :: rest) (value : Int) shift res
      = vlqLoop rest 0 0 (res ++ [vlqFinish ((value + n * 2 ^ shift : Nat) : Int)]) := by
  rw [vlqLoop_cons (b64Char n) (n : Int) (charDigit_b64Char n (by omega))]
  rw [if_neg (by exact_mod_cast Nat.not_le.mpr hn)]
  have hmod32 : shift % 32 = shift := Nat.mod_eq_of_lt (by omega)
  have hd : (n : Int) % 32 = (n : Int) := by omega
  rw [hmod32, hd]
  rw [show (n : Int) * 2 ^ shift = ((n * 2 ^ shift : Nat) : Int) by push_cast; ring]
  rw [wrap32_of_range _ (Int.ofNat_nonneg _) (by exact_mod_cast (by omega : n * 2 ^ shift < 2147483648))]
  rw [show (value : Int) + ((n * 2 ^ shift : Nat) : Int) = ((value + n * 2 ^ shift : Nat) : Int)
    by push_cast; ring]
  rw [wrap32_of_range _ (Int.ofNat_nonneg _) (by exact_mod_cast hval)]

/-- Decoding an encoded unsigned value appended to further input pushes
exactly that value (shifted into the current accumulator) and continues:
the core of the VLQ round trip, by induction on the encoder's fuel. -/
theorem vlqLoop_encAux :
    ∀ (fuel n value shift : Nat) (res : List Int) (rest : List Char),
      n ≤ fuel →
      value + n * 2 ^ shift < 2147483648 →
      shift ≤ 30 →
      vlqLoop (encAux fuel n ++ rest) (value : Int) shift res
        = vlqLoop rest 0 0 (res ++ [vlqFinish ((value + n * 2 ^ shift : Nat) : Int)]) := by
  intro fuel
  induction fuel with
  | zero =>
    intro n value shift res rest hfuel hval hshift
    have hn : n = 0 := by omega
    subst hn
    simp only [encAux, Nat.zero_mod, List.singleton_append]
    exact vlqLoop_final_digit 0 value shift res rest (by omega) hval hshift
  | succ fuel ih =>
    intro n value shift res rest hfuel hval hshift
    by_cases hlt : n < 32
    · simp only [encAux]
      rw [if_pos hlt, List.singleton_append]
      exact vlqLoop_final_digit n value shift res rest hlt hval hshift
    · have hge : 32 ≤ n := by omega
      simp only [encAux]
      rw [if_neg hlt, List.cons_append]
      rw [vlqLoop_cons _ ((32 + n % 32 : Nat) : Int)
        (charDigit_b64Char (32 + n % 32) (by omega))]
      rw [if_pos (by push_cast; omega)]
      have hmod32 : shift % 32 = shift := Nat.mod_eq_of_lt (by omega)
      have hA : n % 32 * 2 ^ shift ≤ n * 2 ^ shift :=
        Nat.mul_le_mul_right _ (Nat.mod_le n 32)
      have hv2 : wrap32 ((value : Int)
            + wrap32 (((32 + n % 32 : Nat) : Int) % 32 * 2 ^ (shift % 32)))
          = ((value + n % 32 * 2 ^ shift : Nat) : Int) := by
        rw [hmod32]
        rw [show ((32 + n % 32 : Nat) : Int) % 32 = ((n % 32 : Nat) : Int) by push_cast; omega]
        rw [show ((n % 32 : Nat) : Int) * 2 ^ shift = ((n % 32 * 2 ^ shift : Nat) : Int)
          by push_cast; ring]
        rw [wrap32_of_range _ (Int.ofNat_nonneg _)
          (by exact_mod_cast (by omega : n % 32 * 2 ^ shift < 2147483648))]
        rw [show (value : Int) + ((n % 32 * 2 ^ shift : Nat) : Int)
            = ((value + n % 32 * 2 ^ shift : Nat) : Int) by push_cast; ring]
        exact wrap32_of_range _ (Int.ofNat_nonneg _)
          (by exact_mod_cast (by omega : value + n % 32 * 2 ^ shift < 2147483648))
      rw [hv2]
      have hE : value + n % 32 * 2 ^ shift + n / 32 * 2 ^ (shift + 5)
          = value + n * 2 ^ shift := by
        have h1 : n % 32 * 2 ^ shift + n / 32 * 2 ^ (shift + 5) = n * 2 ^ shift := by
          rw [pow_add]
          calc n % 32 * 2 ^ shift + n / 32 * (2 ^ shift * 2 ^ 5)
              = (n % 32 + 2 ^ 5 * (n / 32)) * 2 ^ shift := by ring
            _ = n * 2 ^ shift := by
                rw [show (2 : Nat) ^ 5 = 32 by norm_num, Nat.mod_add_div]
        omega
      have hshift5 : shift + 5 ≤ 30 := by
        have h32 : 2 ^ (shift + 5) < 2 ^ 31 := by
          calc (2 : Nat) ^ (shift + 5) = 32 * 2 ^ shift := by rw [pow_add]; ring
            _ ≤ n * 2 ^ shift := Nat.mul_le_mul_right _ hge
            _ ≤ value + n * 2 ^ shift := Nat.le_add_left _ _
            _ < 2147483648 := hval
            _ = 2 ^ 31 := by norm_num
        have := (Nat.pow_lt_pow_iff_right (by norm_num : (1 : Nat) < 2)).mp h32
        omega
      have hdiv : n / 32 ≤ fuel := by
        have := Nat.div_lt_self (show 0 < n by omega) (show 1 < 32 by omega)
        omega
      rw [ih (n / 32) (value + n % 32 * 2 ^ shift) (shift + 5) res rest hdiv
        (by rw [hE]; exact hval) hshift5]
      rw [hE]

/-- C4: encoding any signed integer in the supported range with the
spec's base64 VLQ scheme and decoding it with the program's VLQ decoder
returns exactly that integer. -/
theorem claim_C4 (v : Int) (h1 : -1073741824 < v) (h2 : v < 1073741824) :
    vlq_decode (vlq_encode v) = [v] := by
  unfold vlq_decode vlq_encode encodeVlqNat
  set n := (if v < 0 then 2 * (-v).toNat + 1 else 2 * v.toNat) with hn
  have hnlt : n < 2147483648 := by
    rw [hn]
    split <;> omega
  have h := vlqLoop_encAux n n 0 0 [] [] (le_refl n) (by simpa using hnlt) (by omega)
  simp only [List.append_nil, List.nil_append, Nat.cast_zero, pow_zero, mul_one,
    Nat.zero_add, zero_add] at h
  rw [h]
  simp only [vlqLoop, List.cons.injEq, and_true]
  have hcast : (n : Int) = if v < 0 then -2 * v + 1 else 2 * v := by
    rw [hn]
    split <;> push_cast <;> omega
  rcases lt_or_ge v 0 with hv | hv
  · rw [if_pos hv] at hcast
    unfold vlqFinish
    split <;> omega
  · rw [if_neg (not_lt.mpr hv)] at hcast
    unfold vlqFinish
    split <;> omega

/-- Witness for C4 at `v = -17`. -/
theorem claim_C4_witness : vlq_decode (vlq_encode (-17)) = [-17] :=
  claim_C4 (-17) (by decide) (by decide)
